import Mathlib

/-!
Verification of the `ieu` fixed-size worker pool (src/lib.rs).

The synchronization core of the library is a round protocol: `Pool::execute`
publishes a function and a round size `max`, resets the atomic claim cursor
`cnt` and the barrier counter `finished`, and unparks all workers.  Each worker
repeatedly performs `cnt.fetch_add(1)`; a returned value below `max` is an index
it invokes the function on, a value at or above `max` ends its participation:
it increments `finished`, and the worker whose increment observes
`old == size - 1` sets the notification flag and broadcasts, waking the caller.

We embed this protocol as a small-step interleaving transition system over the
shared control block (cnt, finished, notif) together with each worker thread's
program counter, at SeqCst atomic granularity (one atomic access per step), with
every one of the `size` workers participating exactly once per round (no
spurious wakeups).  Invocations are recorded as (worker, index) pairs, so that
coverage, uniqueness, per-worker counts and cursor arithmetic are all provable
facts about reachable states.

Separate, smaller transition systems embed the shutdown round run by
`Drop for Pool` (workers observe a null function pointer, report to the barrier
and exit) and the admission-lock serialization of two concurrent `execute`
callers.  The process-wide entry point's worker-count resolution
(`IEU_NUM_THREADS`, then `RAYON_NUM_THREADS`, then `num_cpus::get()`) is
embedded as a pure function over an environment map.
-/

/-- Program counter of one worker thread inside the non-null branch of the
worker loop of `Pool::new` (src/lib.rs lines 63-78). -/
inductive WStatus where
  /-- at the top of the claim loop, about to `cnt.fetch_add(1)` (line 68) -/
  | racing : WStatus
  /-- claimed index `i < max`, about to run `(func)(cnt)` (line 77) -/
  | invoking : Nat → WStatus
  /-- observed `cnt >= max`, about to `finished.fetch_add(1)` (line 70) -/
  | finishing : WStatus
  /-- observed `old == size - 1`, about to set the flag and notify (lines 72-73) -/
  | notifying : WStatus
  /-- broke out of the claim loop; back to `park` for this round -/
  | done : WStatus
deriving DecidableEq

/-- The shared control block state of one round (`PoolInner`), plus the program
counter of each of the `size` worker threads and the list of performed
invocations `(worker, index)` in temporal order. -/
structure RoundState where
  /-- the claim cursor `PoolInner.cnt` -/
  cnt : Nat
  /-- the barrier counter `PoolInner.finished` -/
  finished : Nat
  /-- the boolean behind `PoolInner.notif_mutex`, waited on via `notif_var` -/
  notif : Bool
  /-- invocations of the round function performed so far, as (worker, index) -/
  invoked : List (Nat × Nat)
  /-- program counter of each worker thread -/
  workers : List WStatus
deriving DecidableEq

/-- The index a worker is about to invoke the function on, if any. -/
def WStatus.pendingIdx : WStatus → Option Nat
  | .invoking i => some i
  | _ => none

/-- Worker has performed its one failed claim (`cnt >= max`) and left the
claim loop or is leaving it. -/
def WStatus.isFailed : WStatus → Bool
  | .finishing | .notifying | .done => true
  | _ => false

/-- Worker has already performed its `finished.fetch_add(1)`. -/
def WStatus.isCounted : WStatus → Bool
  | .notifying | .done => true
  | _ => false

/-- Worker is in state `invoking`. -/
def WStatus.isInvokingB : WStatus → Bool
  | .invoking _ => true
  | _ => false

/-- Worker is in state `finishing`. -/
def WStatus.isFinishingB : WStatus → Bool
  | .finishing => true
  | _ => false

/-- Worker is in state `notifying`. -/
def WStatus.isNotifyingB : WStatus → Bool
  | .notifying => true
  | _ => false

/-- Indices claimed but not yet invoked (one per worker in state `invoking`). -/
def pendingList (s : RoundState) : List Nat :=
  s.workers.filterMap WStatus.pendingIdx

/-- One atomic step of the round protocol with round size `n` (`max`).  The
worker count is the length of the `workers` list, which every step preserves.
Each constructor is one line-level action of the worker loop in `Pool::new`. -/
inductive Step (n : Nat) : RoundState → RoundState → Prop where
  /-- `let cnt = inner.cnt.fetch_add(1, SeqCst)` followed by the branch on
  `cnt >= max` (lines 68-69): on success the worker proceeds to invoke the
  function on the claimed index, on failure it proceeds to the barrier. -/
  | claim (s : RoundState) (k : Nat) (hk : s.workers.get? k = some .racing) :
      Step n s { s with
        cnt := s.cnt + 1,
        workers := s.workers.set k
          (if s.cnt < n then .invoking s.cnt else .finishing) }
  /-- `(unsafe { &*func })(cnt)` (line 77): the invocation is recorded and the
  worker returns to the top of the claim loop. -/
  | invoke (s : RoundState) (k i : Nat) (hk : s.workers.get? k = some (.invoking i)) :
      Step n s { s with
        invoked := s.invoked ++ [(k, i)],
        workers := s.workers.set k .racing }
  /-- `let old = inner.finished.fetch_add(1, SeqCst)` and the branch on
  `old == size - 1` (lines 70-71). -/
  | finish (s : RoundState) (k : Nat) (hk : s.workers.get? k = some .finishing) :
      Step n s { s with
        finished := s.finished + 1,
        workers := s.workers.set k
          (if s.finished = s.workers.length - 1 then .notifying else .done) }
  /-- `*inner.notif_mutex.lock().unwrap() = true; inner.notif_var.notify_all()`
  (lines 72-73), performed by the last finisher. -/
  | notify (s : RoundState) (k : Nat) (hk : s.workers.get? k = some .notifying) :
      Step n s { s with
        notif := true,
        workers := s.workers.set k .done }

/-- State right after `execute` has reset `cnt`, `finished` and `max` and
unparked all `w` workers (lines 109-115); the notification flag is `false`
(initially so, and reset by the previous `execute` at line 120). -/
def initState (w : Nat) : RoundState :=
  { cnt := 0, finished := 0, notif := false, invoked := [],
    workers := List.replicate w .racing }

/-- Reachability inside one round of size `n` on a pool of `w` workers. -/
def RoundReachable (w n : Nat) (s : RoundState) : Prop :=
  Relation.ReflTransGen (Step n) (initState w) s

/-- All workers have broken out of the claim loop: the round is over. -/
def Terminal (s : RoundState) : Prop :=
  ∀ st ∈ s.workers, st = WStatus.done

/-- Executions of exactly `k` steps, used to bound round length. -/
inductive StepsN (n : Nat) : Nat → RoundState → RoundState → Prop where
  | refl (s : RoundState) : StepsN n 0 s s
  | tail {k : Nat} {s s' s'' : RoundState} :
      StepsN n k s s' → Step n s' s'' → StepsN n (k + 1) s s''

/-- Decomposing a list at a position known to hold `a`: `List.set` then
replaces exactly that occurrence. -/
theorem get_set_decomp {α : Type} (l : List α) (k : Nat) (a : α)
    (h : l.get? k = some a) :
    ∃ l₁ l₂, l = l₁ ++ a :: l₂ ∧ l₁.length = k ∧
      ∀ b, l.set k b = l₁ ++ b :: l₂ := by
  induction l generalizing k with
  | nil => simp [List.get?] at h
  | cons x t ih =>
    cases k with
    | zero =>
      simp only [List.get?, Option.some.injEq] at h
      subst h
      exact ⟨[], t, rfl, rfl, fun b => by simp [List.set]⟩
    | succ k =>
      simp only [List.get?] at h
      obtain ⟨l₁, l₂, hl, hlen, hset⟩ := ih k h
      exact ⟨x :: l₁, l₂, by simp [hl], by simp [hlen],
        fun b => by simp [List.set, hset b]⟩

/-- The inductive invariant of the round protocol.  `hcount` and `hlen` say
the successful claims so far are exactly the indices below `min cnt n`, each
claimed once, split between performed invocations and claims still being
invoked; `hcnt` accounts every `fetch_add` on the cursor; `hfin` accounts every
`fetch_add` on the barrier counter; `hnotif`/`hnotifying` say the flag is only
set once the barrier counter has reached the worker count; `hdone` says a fully
finished round has set the flag; `hwid` says recorded worker ids are real. -/
structure RInv (n : Nat) (s : RoundState) : Prop where
  hcount : ∀ i : Nat,
    (s.invoked.map Prod.snd).count i + (pendingList s).count i =
      if i < min s.cnt n then 1 else 0
  hlen : s.invoked.length + (pendingList s).length = min s.cnt n
  hcnt : s.cnt = s.invoked.length + (pendingList s).length +
      s.workers.countP WStatus.isFailed
  hfin : s.finished = s.workers.countP WStatus.isCounted
  hnotif : s.notif = true → s.finished = s.workers.length
  hnotifying : WStatus.notifying ∈ s.workers → s.finished = s.workers.length
  hdone : s.workers ≠ [] → (∀ st ∈ s.workers, st = WStatus.done) →
      s.notif = true
  hwid : ∀ p ∈ s.invoked, p.1 < s.workers.length

/-- The invariant holds at the start of a round. -/
theorem RInv_init (w n : Nat) : RInv n (initState w) := by
  refine ⟨?_, ?_, ?_, ?_, ?_, ?_, ?_, ?_⟩ <;>
    simp [initState, pendingList, List.filterMap_replicate, WStatus.pendingIdx,
      List.countP_replicate, WStatus.isFailed, WStatus.isCounted]

/-- countP over a list split around one element. -/
theorem countP_mid {α : Type} (p : α → Bool) (l₁ l₂ : List α) (a : α) :
    (l₁ ++ a :: l₂).countP p =
      l₁.countP p + l₂.countP p + if p a then 1 else 0 := by
  cases hp : p a <;> simp [List.countP_append, List.countP_cons, hp] <;> omega

/-- count over a list of naturals split around one element. -/
theorem count_mid (i : Nat) (l₁ l₂ : List Nat) (a : Nat) :
    (l₁ ++ a :: l₂).count i =
      l₁.count i + l₂.count i + if a = i then 1 else 0 := by
  by_cases h : a = i <;>
    simp [List.count_append, List.count_cons, h] <;> omega

/-- length of a list split around one element. -/
theorem length_mid {α : Type} (l₁ l₂ : List α) (a : α) :
    (l₁ ++ a :: l₂).length = l₁.length + l₂.length + 1 := by
  simp [List.length_append]; omega

/-- filterMap over a list split around one element. -/
theorem filterMap_mid {α β : Type} (f : α → Option β) (l₁ l₂ : List α) (a : α) :
    (l₁ ++ a :: l₂).filterMap f =
      l₁.filterMap f ++ ((f a).toList ++ l₂.filterMap f) := by
  cases h : f a <;> simp [List.filterMap_append, List.filterMap_cons, h]

/-- membership in a list split around one element. -/
theorem mem_mid {α : Type} (x : α) (l₁ l₂ : List α) (a : α) :
    x ∈ l₁ ++ a :: l₂ ↔ x ∈ l₁ ∨ x = a ∨ x ∈ l₂ := by
  simp [List.mem_append, List.mem_cons]



/-- The invariant is preserved by every step of the round protocol. -/
theorem RInv_step {n : Nat} {s s' : RoundState} (hst : Step n s s')
    (hinv : RInv n s) : RInv n s' := by
  obtain ⟨hcount, hlen, hcnt, hfin, hnotif, hnotifying, hdone, hwid⟩ := hinv
  cases hst with
  | claim k hk =>
    obtain ⟨l₁, l₂, hl, hl1, hset⟩ := get_set_decomp _ k _ hk
    by_cases hc : s.cnt < n
    · rw [if_pos hc, hset]
      refine ⟨?_, ?_, ?_, ?_, ?_, ?_, ?_, ?_⟩
      · intro i
        have h := hcount i
        simp [pendingList, hl, filterMap_mid, count_mid, List.count_cons,
          beq_iff_eq, WStatus.pendingIdx, List.count_singleton'] at h ⊢
        split_ifs at h ⊢ <;> omega
      · have h := hlen
        simp [pendingList, hl, filterMap_mid, WStatus.pendingIdx] at h ⊢
        omega
      · have h := hcnt
        simp [pendingList, hl, filterMap_mid, countP_mid,
          WStatus.pendingIdx, WStatus.isFailed] at h ⊢
        omega
      · have h := hfin
        simp [hl, countP_mid, WStatus.isCounted] at h ⊢
        omega
      · intro hb
        have h := hnotif hb
        simp [hl, length_mid] at h ⊢
        omega
      · intro hm
        rw [mem_mid] at hm
        have h : s.finished = s.workers.length := by
          rcases hm with hm | hm | hm
          · exact hnotifying (by rw [hl, mem_mid]; exact Or.inl hm)
          · exact WStatus.noConfusion hm
          · exact hnotifying (by rw [hl, mem_mid]; exact Or.inr (Or.inr hm))
        simp [hl, length_mid] at h ⊢
        omega
      · intro hne hall
        have hmem : WStatus.invoking s.cnt ∈ l₁ ++ WStatus.invoking s.cnt :: l₂ :=
          (mem_mid _ _ _ _).mpr (Or.inr (Or.inl rfl))
        exact WStatus.noConfusion (hall _ hmem)
      · intro p hp
        have h := hwid p hp
        simp [hl, length_mid] at h ⊢
        omega
    · rw [if_neg hc, hset]
      refine ⟨?_, ?_, ?_, ?_, ?_, ?_, ?_, ?_⟩
      · intro i
        have h := hcount i
        simp [pendingList, hl, filterMap_mid, WStatus.pendingIdx] at h ⊢
        split_ifs at h ⊢ <;> omega
      · have h := hlen
        simp [pendingList, hl, filterMap_mid, WStatus.pendingIdx] at h ⊢
        omega
      · have h := hcnt
        simp [pendingList, hl, filterMap_mid, countP_mid,
          WStatus.pendingIdx, WStatus.isFailed] at h ⊢
        omega
      · have h := hfin
        simp [hl, countP_mid, WStatus.isCounted] at h ⊢
        omega
      · intro hb
        have h := hnotif hb
        simp [hl, length_mid] at h ⊢
        omega
      · intro hm
        rw [mem_mid] at hm
        have h : s.finished = s.workers.length := by
          rcases hm with hm | hm | hm
          · exact hnotifying (by rw [hl, mem_mid]; exact Or.inl hm)
          · exact WStatus.noConfusion hm
          · exact hnotifying (by rw [hl, mem_mid]; exact Or.inr (Or.inr hm))
        simp [hl, length_mid] at h ⊢
        omega
      · intro hne hall
        have hmem : WStatus.finishing ∈ l₁ ++ WStatus.finishing :: l₂ :=
          (mem_mid _ _ _ _).mpr (Or.inr (Or.inl rfl))
        exact WStatus.noConfusion (hall _ hmem)
      · intro p hp
        have h := hwid p hp
        simp [hl, length_mid] at h ⊢
        omega
  | invoke k i hk =>
    obtain ⟨l₁, l₂, hl, hl1, hset⟩ := get_set_decomp _ k _ hk
    rw [hset]
    refine ⟨?_, ?_, ?_, ?_, ?_, ?_, ?_, ?_⟩
    · intro j
      have h := hcount j
      simp [pendingList, hl, filterMap_mid, count_mid, List.count_cons,
        beq_iff_eq, WStatus.pendingIdx, List.count_singleton'] at h ⊢
      split_ifs at h ⊢ <;> omega
    · have h := hlen
      simp [pendingList, hl, filterMap_mid, WStatus.pendingIdx] at h ⊢
      omega
    · have h := hcnt
      simp [pendingList, hl, filterMap_mid, countP_mid,
        WStatus.pendingIdx, WStatus.isFailed] at h ⊢
      omega
    · have h := hfin
      simp [hl, countP_mid, WStatus.isCounted] at h ⊢
      omega
    · intro hb
      have h := hnotif hb
      simp [hl, length_mid] at h ⊢
      omega
    · intro hm
      rw [mem_mid] at hm
      have h : s.finished = s.workers.length := by
        rcases hm with hm | hm | hm
        · exact hnotifying (by rw [hl, mem_mid]; exact Or.inl hm)
        · exact WStatus.noConfusion hm
        · exact hnotifying (by rw [hl, mem_mid]; exact Or.inr (Or.inr hm))
      simp [hl, length_mid] at h ⊢
      omega
    · intro hne hall
      have hmem : WStatus.racing ∈ l₁ ++ WStatus.racing :: l₂ :=
        (mem_mid _ _ _ _).mpr (Or.inr (Or.inl rfl))
      exact WStatus.noConfusion (hall _ hmem)
    · intro p hp
      rcases List.mem_append.mp hp with hp | hp
      · have h := hwid p hp
        simp [hl, length_mid] at h ⊢
        omega
      · have hk2 : k < s.workers.length := by
          rcases List.get?_eq_some.mp hk with ⟨hlt, _⟩
          exact hlt
        simp only [List.mem_singleton] at hp
        subst hp
        simp [hl, length_mid] at hk2 ⊢
        omega
  | finish k hk =>
    obtain ⟨l₁, l₂, hl, hl1, hset⟩ := get_set_decomp _ k _ hk
    have hwlen : s.workers.length = l₁.length + l₂.length + 1 := by
      rw [hl, length_mid]
    have hfin2 := hfin
    simp [hl, countP_mid, WStatus.isCounted] at hfin2
    have hle1 : l₁.countP WStatus.isCounted ≤ l₁.length :=
      List.countP_le_length WStatus.isCounted
    have hle2 : l₂.countP WStatus.isCounted ≤ l₂.length :=
      List.countP_le_length WStatus.isCounted
    by_cases hlast : s.finished = s.workers.length - 1
    · rw [if_pos hlast, hset]
      refine ⟨?_, ?_, ?_, ?_, ?_, ?_, ?_, ?_⟩
      · intro j
        have h := hcount j
        simp [pendingList, hl, filterMap_mid, WStatus.pendingIdx] at h ⊢
        split_ifs at h ⊢ <;> omega
      · have h := hlen
        simp [pendingList, hl, filterMap_mid, WStatus.pendingIdx] at h ⊢
        omega
      · have h := hcnt
        simp [pendingList, hl, filterMap_mid, countP_mid,
          WStatus.pendingIdx, WStatus.isFailed] at h ⊢
        omega
      · have h := hfin
        simp [hl, countP_mid, WStatus.isCounted] at h ⊢
        omega
      · intro _
        simp [length_mid]
        omega
      · intro _
        simp [length_mid]
        omega
      · intro hne hall
        have hmem : WStatus.notifying ∈ l₁ ++ WStatus.notifying :: l₂ :=
          (mem_mid _ _ _ _).mpr (Or.inr (Or.inl rfl))
        exact WStatus.noConfusion (hall _ hmem)
      · intro p hp
        have h := hwid p hp
        simp [hl, length_mid] at h ⊢
        omega
    · rw [if_neg hlast, hset]
      refine ⟨?_, ?_, ?_, ?_, ?_, ?_, ?_, ?_⟩
      · intro j
        have h := hcount j
        simp [pendingList, hl, filterMap_mid, WStatus.pendingIdx] at h ⊢
        split_ifs at h ⊢ <;> omega
      · have h := hlen
        simp [pendingList, hl, filterMap_mid, WStatus.pendingIdx] at h ⊢
        omega
      · have h := hcnt
        simp [pendingList, hl, filterMap_mid, countP_mid,
          WStatus.pendingIdx, WStatus.isFailed] at h ⊢
        omega
      · have h := hfin
        simp [hl, countP_mid, WStatus.isCounted] at h ⊢
        omega
      · intro hb
        have h := hnotif hb
        simp [hl, length_mid] at h
        simp [length_mid]
        omega
      · intro hm
        rw [mem_mid] at hm
        have h : s.finished = s.workers.length := by
          rcases hm with hm | hm | hm
          · exact hnotifying (by rw [hl, mem_mid]; exact Or.inl hm)
          · exact WStatus.noConfusion hm
          · exact hnotifying (by rw [hl, mem_mid]; exact Or.inr (Or.inr hm))
        exfalso
        omega
      · intro hne hall
        exfalso
        have h1 : l₁.countP WStatus.isCounted = l₁.length :=
          List.countP_eq_length.mpr fun a ha => by
            rw [hall a ((mem_mid _ _ _ _).mpr (Or.inl ha))]; rfl
        have h2 : l₂.countP WStatus.isCounted = l₂.length :=
          List.countP_eq_length.mpr fun a ha => by
            rw [hall a ((mem_mid _ _ _ _).mpr (Or.inr (Or.inr ha)))]; rfl
        omega
      · intro p hp
        have h := hwid p hp
        simp [hl, length_mid] at h ⊢
        omega
  | notify k hk =>
    obtain ⟨l₁, l₂, hl, hl1, hset⟩ := get_set_decomp _ k _ hk
    have hnm : WStatus.notifying ∈ s.workers := by
      rw [hl, mem_mid]; exact Or.inr (Or.inl rfl)
    have hfw := hnotifying hnm
    rw [hset]
    refine ⟨?_, ?_, ?_, ?_, ?_, ?_, ?_, ?_⟩
    · intro j
      have h := hcount j
      simp [pendingList, hl, filterMap_mid, WStatus.pendingIdx] at h ⊢
      split_ifs at h ⊢ <;> omega
    · have h := hlen
      simp [pendingList, hl, filterMap_mid, WStatus.pendingIdx] at h ⊢
      omega
    · have h := hcnt
      simp [pendingList, hl, filterMap_mid, countP_mid,
        WStatus.pendingIdx, WStatus.isFailed] at h ⊢
      omega
    · have h := hfin
      simp [hl, countP_mid, WStatus.isCounted] at h ⊢
      omega
    · intro _
      simp [hl, length_mid] at hfw ⊢
      omega
    · intro _
      simp [hl, length_mid] at hfw ⊢
      omega
    · intro _ _
      rfl
    · intro p hp
      have h := hwid p hp
      simp [hl, length_mid] at h ⊢
      omega

/-- Steps preserve the number of worker threads. -/
theorem Step_length {n : Nat} {s s' : RoundState} (hst : Step n s s') :
    s'.workers.length = s.workers.length := by
  cases hst <;> simp

/-- Every state reachable in a round satisfies the invariant and keeps the
round's worker count. -/
theorem RoundReachable_inv {w n : Nat} {s : RoundState}
    (h : RoundReachable w n s) : RInv n s ∧ s.workers.length = w := by
  induction h with
  | refl => exact ⟨RInv_init w n, by simp [initState]⟩
  | tail _ hstep ih => exact ⟨RInv_step hstep ih.1, (Step_length hstep).trans ih.2⟩

/-- In a terminal reachable state no claim is pending and every worker has
failed its last claim and reported to the barrier. -/
theorem terminal_facts {w n : Nat} {s : RoundState}
    (h : RoundReachable w n s) (ht : Terminal s) :
    pendingList s = [] ∧ s.workers.countP WStatus.isFailed = w ∧
      s.workers.countP WStatus.isCounted = w := by
  obtain ⟨_, hw⟩ := RoundReachable_inv h
  refine ⟨?_, ?_, ?_⟩
  · exact List.filterMap_eq_nil_iff.mpr fun a ha => by rw [ht a ha]; rfl
  · rw [← hw]
    exact List.countP_eq_length.mpr fun a ha => by rw [ht a ha]; rfl
  · rw [← hw]
    exact List.countP_eq_length.mpr fun a ha => by rw [ht a ha]; rfl

/-- Everything true of a completed round with at least one worker: coverage
and uniqueness of the invoked indices, the total number of invocations, the
final cursor value, the closed barrier, and the raised notification flag. -/
theorem round_end {w n : Nat} {s : RoundState} (hw : 1 ≤ w)
    (h : RoundReachable w n s) (ht : Terminal s) :
    (∀ i, i < n → (s.invoked.map Prod.snd).count i = 1) ∧
    (∀ i, n ≤ i → (s.invoked.map Prod.snd).count i = 0) ∧
    s.invoked.length = n ∧ s.cnt = n + w ∧ s.finished = w ∧ s.notif = true := by
  obtain ⟨hinv, hwlen⟩ := RoundReachable_inv h
  obtain ⟨hpend, hfail, hcountw⟩ := terminal_facts h ht
  have h1 := hinv.hlen
  have h2 := hinv.hcnt
  rw [hpend, hfail] at h2
  rw [hpend] at h1
  simp only [List.length_nil, Nat.add_zero] at h1 h2
  have hmin : min s.cnt n = n := by omega
  have hne : s.workers ≠ [] := by
    intro he
    rw [he] at hwlen
    simp at hwlen
    omega
  refine ⟨?_, ?_, by omega, by omega, ?_, hinv.hdone hne ht⟩
  · intro i hi
    have hc := hinv.hcount i
    rw [hpend, hmin] at hc
    simpa [hi] using hc
  · intro i hi
    have hc := hinv.hcount i
    rw [hpend, hmin] at hc
    rw [if_neg (by omega)] at hc
    simpa using hc
  · rw [hinv.hfin, hcountw]

/-- A reachable state that is not terminal can always take another step: the
round never gets stuck before all workers are done. -/
theorem round_progress {n : Nat} {s : RoundState}
    (hnt : ¬ Terminal s) : ∃ s', Step n s s' := by
  have hex : ∃ st ∈ s.workers, st ≠ WStatus.done := by
    by_contra hno
    push_neg at hno
    exact hnt fun st hst => hno st hst
  obtain ⟨st, hmem, hne⟩ := hex
  obtain ⟨k, hk⟩ := List.mem_iff_get?.mp hmem
  cases st with
  | racing => exact ⟨_, Step.claim s k hk⟩
  | invoking i => exact ⟨_, Step.invoke s k i hk⟩
  | finishing => exact ⟨_, Step.finish s k hk⟩
  | notifying => exact ⟨_, Step.notify s k hk⟩
  | done => exact absurd rfl hne

/-- Remaining-work weight of a worker state. -/
def wWeight : WStatus → Nat
  | .racing => 0
  | .invoking _ => 1
  | .finishing => 2
  | .notifying => 1
  | .done => 0

/-- Termination potential of a round state: strictly decreases on every step. -/
def pot (n : Nat) (s : RoundState) : Nat :=
  3 * (n + s.workers.length - s.cnt) + (s.workers.map wWeight).sum

/-- Every step strictly decreases the potential (given the invariant, which
bounds the cursor by `n` plus the worker count). -/
theorem pot_decrease {n : Nat} {s s' : RoundState} (hst : Step n s s')
    (hinv : RInv n s) : pot n s' < pot n s := by
  cases hst with
  | claim k hk =>
    obtain ⟨l₁, l₂, hl, hl1, hset⟩ := get_set_decomp _ k _ hk
    have h1 := hinv.hlen
    have h2 := hinv.hcnt
    have hle1 : l₁.countP WStatus.isFailed ≤ l₁.length :=
      List.countP_le_length WStatus.isFailed
    have hle2 : l₂.countP WStatus.isFailed ≤ l₂.length :=
      List.countP_le_length WStatus.isFailed
    simp [pendingList, hl, filterMap_mid, countP_mid, WStatus.pendingIdx,
      WStatus.isFailed] at h1 h2
    by_cases hc : s.cnt < n
    · rw [if_pos hc, hset]
      simp [pot, hl, length_mid, List.map_append, List.sum_append,
        List.map_cons, List.sum_cons, wWeight]
      omega
    · rw [if_neg hc, hset]
      simp [pot, hl, length_mid, List.map_append, List.sum_append,
        List.map_cons, List.sum_cons, wWeight]
      omega
  | invoke k i hk =>
    obtain ⟨l₁, l₂, hl, hl1, hset⟩ := get_set_decomp _ k _ hk
    rw [hset]
    simp [pot, hl, length_mid, List.map_append, List.sum_append,
      List.map_cons, List.sum_cons, wWeight]
    try omega
  | finish k hk =>
    obtain ⟨l₁, l₂, hl, hl1, hset⟩ := get_set_decomp _ k _ hk
    by_cases hlast : s.finished = s.workers.length - 1
    · rw [if_pos hlast, hset]
      simp [pot, hl, length_mid, List.map_append, List.sum_append,
        List.map_cons, List.sum_cons, wWeight]
      try omega
    · rw [if_neg hlast, hset]
      simp [pot, hl, length_mid, List.map_append, List.sum_append,
        List.map_cons, List.sum_cons, wWeight]
      try omega
  | notify k hk =>
    obtain ⟨l₁, l₂, hl, hl1, hset⟩ := get_set_decomp _ k _ hk
    rw [hset]
    simp [pot, hl, length_mid, List.map_append, List.sum_append,
      List.map_cons, List.sum_cons, wWeight]
    try omega

/-- A bounded execution prefix stays reachable. -/
theorem StepsN_reachable {w n k : Nat} {s s' : RoundState}
    (h0 : RoundReachable w n s) (h : StepsN n k s s') : RoundReachable w n s' := by
  induction h with
  | refl _ => exact h0
  | tail _ hstep ih => exact Relation.ReflTransGen.tail (ih h0) hstep

/-- The potential pays for every step of an execution. -/
theorem StepsN_pot {w n k : Nat} {s s' : RoundState}
    (h0 : RoundReachable w n s) (h : StepsN n k s s') :
    k + pot n s' ≤ pot n s := by
  induction h with
  | refl _ => omega
  | tail hpre hstep ih =>
    have hreach := StepsN_reachable h0 hpre
    have hdec := pot_decrease hstep (RoundReachable_inv hreach).1
    have hih := ih h0
    omega

/-- No execution of a round of size `n` on `w` workers takes more than
`3 * (n + w)` atomic steps: every round terminates in bounded time. -/
theorem round_bounded {w n k : Nat} {s : RoundState}
    (h : StepsN n k (initState w) s) : k ≤ 3 * (n + w) := by
  have hp := StepsN_pot (Relation.ReflTransGen.refl) h
  have hi : pot n (initState w) = 3 * (n + w) := by
    simp [pot, initState, List.map_replicate, wWeight]
  omega

/-- Program counter of a worker that woke and observed a null function pointer
(src/lib.rs lines 80-87): the shutdown path taken when `Drop for Pool` unparks
the workers after `execute` has cleared `func` (line 122). -/
inductive SStatus where
  /-- about to `finished.fetch_add(1)` (line 81) -/
  | running : SStatus
  /-- observed `old == size - 1`, about to set the flag and notify (lines 83-84) -/
  | notifying : SStatus
  /-- executed `break` out of the outer loop (line 86): the thread exits -/
  | terminated : SStatus
deriving DecidableEq

/-- State of the shutdown round run by `Drop for Pool` (lines 126-137):
`finished` was reset to 0 (line 128) and the notification flag is false (it is
false initially and reset to false by every `execute` at line 120). -/
structure ShutState where
  finished : Nat
  notif : Bool
  workers : List SStatus
deriving DecidableEq

/-- Worker has already performed its `finished.fetch_add(1)` on the shutdown
path. -/
def SStatus.isCounted : SStatus → Bool
  | .notifying | .terminated => true
  | _ => false

/-- One atomic step of the shutdown round. -/
inductive SStep : ShutState → ShutState → Prop where
  /-- `let old = inner.finished.fetch_add(1, SeqCst)` and the branch on
  `old == size - 1` (lines 81-82) in the null-function arm. -/
  | finish (s : ShutState) (k : Nat) (hk : s.workers.get? k = some .running) :
      SStep s { s with
        finished := s.finished + 1,
        workers := s.workers.set k
          (if s.finished = s.workers.length - 1 then .notifying
           else .terminated) }
  /-- setting the flag and notifying (lines 83-84), then breaking out. -/
  | notify (s : ShutState) (k : Nat) (hk : s.workers.get? k = some .notifying) :
      SStep s { s with notif := true, workers := s.workers.set k .terminated }

/-- State right after `Drop for Pool` has reset `finished` and unparked all
workers (lines 128-131). -/
def shutInit (w : Nat) : ShutState :=
  { finished := 0, notif := false, workers := List.replicate w .running }

/-- Reachability in the shutdown round on a pool of `w` workers. -/
def ShutReachable (w : Nat) (s : ShutState) : Prop :=
  Relation.ReflTransGen SStep (shutInit w) s

/-- All worker threads have exited their loop. -/
def ShutTerminal (s : ShutState) : Prop :=
  ∀ st ∈ s.workers, st = SStatus.terminated

/-- Inductive invariant of the shutdown round. -/
structure SInv (s : ShutState) : Prop where
  hfin : s.finished = s.workers.countP SStatus.isCounted
  hnotif : s.notif = true → s.finished = s.workers.length
  hnotifying : SStatus.notifying ∈ s.workers → s.finished = s.workers.length
  hdone : s.workers ≠ [] → ShutTerminal s → s.notif = true

/-- The shutdown invariant holds initially. -/
theorem SInv_init (w : Nat) : SInv (shutInit w) := by
  refine ⟨?_, ?_, ?_, ?_⟩ <;>
    simp [shutInit, ShutTerminal, List.countP_replicate, SStatus.isCounted]

/-- The shutdown invariant is preserved by every step. -/
theorem SInv_step {s s' : ShutState} (hst : SStep s s') (hinv : SInv s) :
    SInv s' := by
  obtain ⟨hfin, hnotif, hnotifying, hdone⟩ := hinv
  cases hst with
  | finish k hk =>
    obtain ⟨l₁, l₂, hl, hl1, hset⟩ := get_set_decomp _ k _ hk
    have hwlen : s.workers.length = l₁.length + l₂.length + 1 := by
      rw [hl, length_mid]
    have hfin2 := hfin
    simp [hl, countP_mid, SStatus.isCounted] at hfin2
    have hle1 : l₁.countP SStatus.isCounted ≤ l₁.length :=
      List.countP_le_length SStatus.isCounted
    have hle2 : l₂.countP SStatus.isCounted ≤ l₂.length :=
      List.countP_le_length SStatus.isCounted
    by_cases hlast : s.finished = s.workers.length - 1
    · rw [if_pos hlast, hset]
      refine ⟨?_, ?_, ?_, ?_⟩
      · have h := hfin
        simp [hl, countP_mid, SStatus.isCounted] at h ⊢
        omega
      · intro _
        simp [length_mid]
        omega
      · intro _
        simp [length_mid]
        omega
      · intro hne hall
        have hmem : SStatus.notifying ∈ l₁ ++ SStatus.notifying :: l₂ :=
          (mem_mid _ _ _ _).mpr (Or.inr (Or.inl rfl))
        exact SStatus.noConfusion (hall _ hmem)
    · rw [if_neg hlast, hset]
      refine ⟨?_, ?_, ?_, ?_⟩
      · have h := hfin
        simp [hl, countP_mid, SStatus.isCounted] at h ⊢
        omega
      · intro hb
        have h := hnotif hb
        simp [hl, length_mid] at h
        simp [length_mid]
        omega
      · intro hm
        rw [mem_mid] at hm
        have h : s.finished = s.workers.length := by
          rcases hm with hm | hm | hm
          · exact hnotifying (by rw [hl, mem_mid]; exact Or.inl hm)
          · exact SStatus.noConfusion hm
          · exact hnotifying (by rw [hl, mem_mid]; exact Or.inr (Or.inr hm))
        exfalso
        omega
      · intro hne hall
        exfalso
        have h1 : l₁.countP SStatus.isCounted = l₁.length :=
          List.countP_eq_length.mpr fun a ha => by
            rw [hall a ((mem_mid _ _ _ _).mpr (Or.inl ha))]; rfl
        have h2 : l₂.countP SStatus.isCounted = l₂.length :=
          List.countP_eq_length.mpr fun a ha => by
            rw [hall a ((mem_mid _ _ _ _).mpr (Or.inr (Or.inr ha)))]; rfl
        omega
  | notify k hk =>
    obtain ⟨l₁, l₂, hl, hl1, hset⟩ := get_set_decomp _ k _ hk
    have hnm : SStatus.notifying ∈ s.workers := by
      rw [hl, mem_mid]; exact Or.inr (Or.inl rfl)
    have hfw := hnotifying hnm
    rw [hset]
    refine ⟨?_, ?_, ?_, ?_⟩
    · have h := hfin
      simp [hl, countP_mid, SStatus.isCounted] at h ⊢
      omega
    · intro _
      simp [hl, length_mid] at hfw ⊢
      omega
    · intro _
      simp [hl, length_mid] at hfw ⊢
      omega
    · intro _ _
      rfl

/-- Shutdown steps preserve the worker count. -/
theorem SStep_length {s s' : ShutState} (hst : SStep s s') :
    s'.workers.length = s.workers.length := by
  cases hst <;> simp

/-- Every state reachable in the shutdown round satisfies the invariant and
keeps the worker count. -/
theorem ShutReachable_inv {w : Nat} {s : ShutState} (h : ShutReachable w s) :
    SInv s ∧ s.workers.length = w := by
  induction h with
  | refl => exact ⟨SInv_init w, by simp [shutInit]⟩
  | tail _ hstep ih => exact ⟨SInv_step hstep ih.1, (SStep_length hstep).trans ih.2⟩

/-- A non-terminal shutdown state can always take another step. -/
theorem shut_progress {s : ShutState} (hnt : ¬ ShutTerminal s) :
    ∃ s', SStep s s' := by
  have hex : ∃ st ∈ s.workers, st ≠ SStatus.terminated := by
    by_contra hno
    push_neg at hno
    exact hnt fun st hst => hno st hst
  obtain ⟨st, hmem, hne⟩ := hex
  obtain ⟨k, hk⟩ := List.mem_iff_get?.mp hmem
  cases st with
  | running => exact ⟨_, SStep.finish s k hk⟩
  | notifying => exact ⟨_, SStep.notify s k hk⟩
  | terminated => exact absurd rfl hne

/-- Remaining-step weight of a shutdown worker state. -/
def sWeight : SStatus → Nat
  | .running => 2
  | .notifying => 1
  | .terminated => 0

/-- Termination potential of a shutdown state. -/
def spot (s : ShutState) : Nat := (s.workers.map sWeight).sum

/-- Every shutdown step strictly decreases the potential. -/
theorem spot_decrease {s s' : ShutState} (hst : SStep s s') :
    spot s' < spot s := by
  cases hst with
  | finish k hk =>
    obtain ⟨l₁, l₂, hl, hl1, hset⟩ := get_set_decomp _ k _ hk
    by_cases hlast : s.finished = s.workers.length - 1
    · rw [if_pos hlast, hset]
      simp [spot, hl, List.map_append, List.sum_append, List.map_cons,
        List.sum_cons, sWeight]
      try omega
    · rw [if_neg hlast, hset]
      simp [spot, hl, List.map_append, List.sum_append, List.map_cons,
        List.sum_cons, sWeight]
      try omega
  | notify k hk =>
    obtain ⟨l₁, l₂, hl, hl1, hset⟩ := get_set_decomp _ k _ hk
    rw [hset]
    simp [spot, hl, List.map_append, List.sum_append, List.map_cons,
      List.sum_cons, sWeight]
    try omega

/-- Shutdown executions of exactly `k` steps. -/
inductive SStepsN : Nat → ShutState → ShutState → Prop where
  | refl (s : ShutState) : SStepsN 0 s s
  | tail {k : Nat} {s s' s'' : ShutState} :
      SStepsN k s s' → SStep s' s'' → SStepsN (k + 1) s s''

/-- The potential pays for every shutdown step. -/
theorem SStepsN_pot {k : Nat} {s s' : ShutState} (h : SStepsN k s s') :
    k + spot s' ≤ spot s := by
  induction h with
  | refl _ => omega
  | tail _ hstep ih =>
    have hdec := spot_decrease hstep
    omega

/-- No shutdown round on `w` workers takes more than `2 * w` atomic steps. -/
theorem shut_bounded {w k : Nat} {s : ShutState}
    (h : SStepsN k (shutInit w) s) : k ≤ 2 * w := by
  have hp := SStepsN_pot h
  have hi : spot (shutInit w) = 2 * w := by
    simp [spot, shutInit, List.map_replicate, sWeight, Nat.smul_one_eq_cast]
    try omega
  omega

/-- With at least one worker, a completed shutdown round has set the flag
(`Drop`'s wait loop at lines 132-136 returns) and the barrier equals the
worker count. -/
theorem shut_end {w : Nat} {s : ShutState} (hw : 1 ≤ w)
    (h : ShutReachable w s) (ht : ShutTerminal s) :
    s.notif = true ∧ s.finished = w := by
  obtain ⟨hinv, hwlen⟩ := ShutReachable_inv h
  have hne : s.workers ≠ [] := by
    intro he
    rw [he] at hwlen
    simp at hwlen
    omega
  refine ⟨hinv.hdone hne ht, ?_⟩
  rw [hinv.hfin, ← hwlen]
  exact List.countP_eq_length.mpr fun a ha => by rw [ht a ha]; rfl

/-- With zero workers nothing can ever happen in a round: the only reachable
state is the initial one. -/
theorem round_stuck_w0 {n : Nat} {s : RoundState}
    (h : RoundReachable 0 n s) : s = initState 0 := by
  induction h with
  | refl => rfl
  | tail _ hstep ih =>
    rw [ih] at hstep
    cases hstep <;> simp_all [initState]

/-- With zero workers nothing can ever happen in the shutdown round either. -/
theorem shut_stuck_w0 {s : ShutState} (h : ShutReachable 0 s) :
    s = shutInit 0 := by
  induction h with
  | refl => rfl
  | tail _ hstep ih =>
    rw [ih] at hstep
    cases hstep <;> simp_all [shutInit]

/-- Observable events of two `execute` calls racing on one pool (or through
the process-wide entry point, whose single global mutex plays the same role
as `lock_mutex`).  The caller is identified by a boolean. -/
inductive Ev where
  /-- the caller acquired `lock_mutex` (line 100) / the `GLOBAL` mutex (line 145) -/
  | acquire : Bool → Ev
  /-- a worker invoked the round function published by this caller on index `i`;
  this can only happen while the caller's `func` is the published one, i.e.
  between the store at line 109 and the null store at line 122 -/
  | inv : Bool → Nat → Ev
  /-- the caller observed the barrier close (`notif` true, lines 116-120):
  no further invocation of its round function is possible -/
  | close : Bool → Ev
  /-- the caller released the admission lock by returning (line 123) -/
  | release : Bool → Ev
deriving DecidableEq

/-- The caller an event belongs to. -/
def Ev.owner : Ev → Bool
  | .acquire c => c
  | .inv c _ => c
  | .close c => c
  | .release c => c

/-- Progress of one `execute` caller. -/
inductive CallerPc where
  /-- has not yet acquired the admission lock (stopped at line 100) -/
  | start : CallerPc
  /-- holds the lock, round published, invocations of its `func` may occur -/
  | running : CallerPc
  /-- holds the lock, barrier closed: `func` cleared, no more invocations -/
  | closed : CallerPc
  /-- returned from `execute`, lock released -/
  | done : CallerPc
deriving DecidableEq

/-- Combined state of the admission lock, two concurrent callers and the
event history. -/
structure SerState where
  lock : Option Bool
  pcF : CallerPc
  pcT : CallerPc
  trace : List Ev
deriving DecidableEq

/-- Program counter of caller `c`. -/
def SerState.pc (s : SerState) (c : Bool) : CallerPc :=
  bif c then s.pcT else s.pcF

/-- Replace the program counter of caller `c`. -/
def SerState.withPc (s : SerState) (c : Bool) (p : CallerPc) : SerState :=
  bif c then { s with pcT := p } else { s with pcF := p }

/-- One step of the two-caller serialization protocol.  Invocations are only
possible for the caller currently holding the admission lock with its round
published: workers read `func` (line 61), which is non-null exactly between
that caller's store (line 109) and its clearing store (line 122), both inside
the caller's critical section. -/
inductive SerStep : SerState → SerState → Prop where
  | acquire (s : SerState) (c : Bool) (h1 : s.lock = none)
      (h2 : s.pc c = .start) :
      SerStep s { s.withPc c .running with
        lock := some c, trace := s.trace ++ [.acquire c] }
  | inv (s : SerState) (c : Bool) (i : Nat) (h1 : s.lock = some c)
      (h2 : s.pc c = .running) :
      SerStep s { s with trace := s.trace ++ [.inv c i] }
  | close (s : SerState) (c : Bool) (h1 : s.lock = some c)
      (h2 : s.pc c = .running) :
      SerStep s { s.withPc c .closed with trace := s.trace ++ [.close c] }
  | release (s : SerState) (c : Bool) (h1 : s.lock = some c)
      (h2 : s.pc c = .closed) :
      SerStep s { s.withPc c .done with
        lock := none, trace := s.trace ++ [.release c] }

/-- Both callers about to call `execute`; nothing has happened yet. -/
def serInit : SerState :=
  { lock := none, pcF := .start, pcT := .start, trace := [] }

/-- Reachability of the two-caller serialization protocol. -/
def SerReachable (s : SerState) : Prop :=
  Relation.ReflTransGen SerStep serInit s


/-- Updating lock and trace does not change program counters. -/
@[simp] theorem pc_mk_lock_trace (x : SerState) (l : Option Bool) (t : List Ev)
    (d : Bool) : ({ x with lock := l, trace := t } : SerState).pc d = x.pc d :=
  rfl

/-- Updating the trace does not change program counters. -/
@[simp] theorem pc_mk_trace (x : SerState) (t : List Ev) (d : Bool) :
    ({ x with trace := t } : SerState).pc d = x.pc d :=
  rfl

/-- withPc does not change the lock. -/
@[simp] theorem withPc_lock (s : SerState) (c : Bool) (p : CallerPc) :
    (s.withPc c p).lock = s.lock := by
  cases c <;> rfl

/-- withPc does not change the trace. -/
@[simp] theorem withPc_trace (s : SerState) (c : Bool) (p : CallerPc) :
    (s.withPc c p).trace = s.trace := by
  cases c <;> rfl

/-- withPc sets the chosen caller's program counter. -/
@[simp] theorem pc_withPc_same (s : SerState) (c : Bool) (p : CallerPc) :
    (s.withPc c p).pc c = p := by
  cases c <;> rfl

/-- withPc leaves the other caller's program counter alone. -/
theorem pc_withPc_other (s : SerState) (c : Bool) (p : CallerPc) (d : Bool)
    (h : d ≠ c) : (s.withPc c p).pc d = s.pc d := by
  cases c <;> cases d <;> simp_all [SerState.pc, SerState.withPc]

/-- Appending to a trace preserves existing positions. -/
theorem get?_extend {α : Type} {l : List α} {j : Nat} {x : α} (e : α)
    (h : l.get? j = some x) : (l ++ [e]).get? j = some x := by
  obtain ⟨hj, _⟩ := List.get?_eq_some.mp h
  rw [List.get?_append hj]
  exact h

/-- A position in an extended trace is an old position or the new last one. -/
theorem get?_snoc_cases {α : Type} {l : List α} {e : α} {j : Nat} {x : α}
    (h : (l ++ [e]).get? j = some x) :
    l.get? j = some x ∨ (j = l.length ∧ x = e) := by
  obtain ⟨hj, _⟩ := List.get?_eq_some.mp h
  simp [List.length_append] at hj
  rcases Nat.lt_or_ge j l.length with hlt | hge
  · left
    rw [List.get?_append hlt] at h
    exact h
  · right
    have hj2 : j = l.length := by omega
    subst hj2
    rw [List.get?_concat_length] at h
    refine ⟨rfl, ?_⟩
    injection h with h2
    exact h2.symm

/-- An occupied position is inside the list. -/
theorem get?_lt {α : Type} {l : List α} {j : Nat} {x : α}
    (h : l.get? j = some x) : j < l.length :=
  (List.get?_eq_some.mp h).1

/-- Inductive invariant of the two-caller serialization protocol.  `hheld`: a
caller that is mid-round holds the admission lock.  `hstart`: a caller that
has not acquired yet has no events.  `hclosed`: once a caller is past the
barrier, each of its invocations is followed by its barrier-close event.
`hmain`: between invocations of the two different rounds, the earlier round's
barrier close intervenes. -/
structure SerInv (s : SerState) : Prop where
  hheld : ∀ c, (s.pc c = .running ∨ s.pc c = .closed) → s.lock = some c
  hstart : ∀ c, s.pc c = .start → ∀ e ∈ s.trace, e.owner ≠ c
  hclosed : ∀ c, (s.pc c = .closed ∨ s.pc c = .done) →
      ∀ j x, s.trace.get? j = some (.inv c x) →
        ∃ m, j < m ∧ s.trace.get? m = some (.close c)
  hmain : ∀ i j c c' x y, c ≠ c' → i < j →
      s.trace.get? i = some (.inv c x) → s.trace.get? j = some (.inv c' y) →
      ∃ m, i < m ∧ m < j ∧ s.trace.get? m = some (.close c)

/-- The serialization invariant holds initially. -/
theorem SerInv_init : SerInv serInit := by
  refine ⟨?_, ?_, ?_, ?_⟩
  · intro c hc
    rcases hc with hc | hc <;> cases c <;> simp [serInit, SerState.pc] at hc
  · intro c _ e he
    simp [serInit] at he
  · intro c _ j x hj
    simp [serInit, List.get?] at hj
  · intro i j c c' x y _ _ hi
    simp [serInit, List.get?] at hi

/-- The serialization invariant is preserved by every step. -/
theorem SerInv_step {s s' : SerState} (hst : SerStep s s') (hinv : SerInv s) :
    SerInv s' := by
  obtain ⟨hheld, hstart, hclosed, hmain⟩ := hinv
  cases hst with
  | acquire c h1 h2 =>
    refine ⟨?_, ?_, ?_, ?_⟩
    · intro d hd
      by_cases hdc : d = c
      · subst hdc; rfl
      · rw [show (SerState.pc { s.withPc c CallerPc.running with
              lock := some c, trace := s.trace ++ [Ev.acquire c] } d) =
            s.pc d from pc_withPc_other s c _ d hdc] at hd
        have hx := hheld d hd
        rw [h1] at hx
        exact Option.noConfusion hx
    · intro d hd e he
      by_cases hdc : d = c
      · subst hdc
        rw [show (SerState.pc { s.withPc d CallerPc.running with
              lock := some d, trace := s.trace ++ [Ev.acquire d] } d) =
            CallerPc.running from pc_withPc_same s d _] at hd
        exact CallerPc.noConfusion hd
      · simp only [pc_mk_lock_trace, pc_withPc_other s c _ d hdc] at hd
        simp only [withPc_trace] at he
        rcases List.mem_append.mp he with he | he
        · exact hstart d hd e he
        · simp only [List.mem_singleton] at he
          subst he
          simp only [Ev.owner]
          exact fun hcd => hdc hcd.symm
    · intro d hd j x hj
      have hdc : d ≠ c := by
        intro hdc
        subst hdc
        simp only [pc_mk_lock_trace, pc_withPc_same] at hd
        rcases hd with hd | hd <;> exact CallerPc.noConfusion hd
      simp only [pc_mk_lock_trace, pc_withPc_other s c _ d hdc] at hd
      simp only [withPc_trace] at hj ⊢
      rcases get?_snoc_cases hj with hj | ⟨_, hx⟩
      · obtain ⟨m, hm1, hm2⟩ := hclosed d hd j x hj
        exact ⟨m, hm1, get?_extend _ hm2⟩
      · exact Ev.noConfusion hx
    · intro i j d d' x y hdd hij hi hj
      simp only [withPc_trace] at hi hj ⊢
      rcases get?_snoc_cases hj with hj | ⟨_, hy⟩
      · rcases get?_snoc_cases hi with hi | ⟨hiL, _⟩
        · obtain ⟨m, hm1, hm2, hm3⟩ := hmain i j d d' x y hdd hij hi hj
          exact ⟨m, hm1, hm2, get?_extend _ hm3⟩
        · have := get?_lt hj
          omega
      · exact Ev.noConfusion hy
  | inv c i0 h1 h2 =>
    refine ⟨?_, ?_, ?_, ?_⟩
    · intro d hd
      exact hheld d hd
    · intro d hd e he
      have hdc : d ≠ c := by
        intro hdc
        subst hdc
        simp only [pc_mk_trace] at hd
        rw [h2] at hd
        exact CallerPc.noConfusion hd
      rcases List.mem_append.mp he with he | he
      · exact hstart d hd e he
      · simp only [List.mem_singleton] at he
        subst he
        simp only [Ev.owner]
        exact fun hcd => hdc hcd.symm
    · intro d hd j x hj
      have hdc : d ≠ c := by
        intro hdc
        subst hdc
        simp only [pc_mk_trace] at hd
        rcases hd with hd | hd <;> rw [h2] at hd <;>
          exact CallerPc.noConfusion hd
      rcases get?_snoc_cases hj with hj | ⟨_, hx⟩
      · obtain ⟨m, hm1, hm2⟩ := hclosed d hd j x hj
        exact ⟨m, hm1, get?_extend _ hm2⟩
      · injection hx with hx1 hx2
        exact absurd hx1 hdc
    · intro i j d d' x y hdd hij hi hj
      rcases get?_snoc_cases hj with hj | ⟨hjL, hy⟩
      · rcases get?_snoc_cases hi with hi | ⟨hiL, _⟩
        · obtain ⟨m, hm1, hm2, hm3⟩ := hmain i j d d' x y hdd hij hi hj
          exact ⟨m, hm1, hm2, get?_extend _ hm3⟩
        · have := get?_lt hj
          omega
      · injection hy with hy1 hy2
        subst hy1
        rcases get?_snoc_cases hi with hi | ⟨hiL, hx⟩
        · have hd4 : s.pc d = .done := by
            have hne : s.pc d ≠ .running ∧ s.pc d ≠ .closed := by
              constructor <;> intro hx <;>
                have := hheld d (by simp [hx]) <;> rw [h1] at this <;>
                injection this with hthis <;> exact hdd hthis.symm
            have hns : s.pc d ≠ .start := by
              intro hx
              exact hstart d hx _ (List.get?_mem hi) rfl
            cases hpd : s.pc d <;> simp_all
          obtain ⟨m, hm1, hm2⟩ := hclosed d (Or.inr hd4) i x hi
          have hmL := get?_lt hm2
          exact ⟨m, hm1, by omega, get?_extend _ hm2⟩
        · omega
  | close c h1 h2 =>
    refine ⟨?_, ?_, ?_, ?_⟩
    · intro d hd
      by_cases hdc : d = c
      · subst hdc
        simpa using h1
      · rw [show (SerState.pc { s.withPc c CallerPc.closed with
              trace := s.trace ++ [Ev.close c] } d) =
            s.pc d from pc_withPc_other s c _ d hdc] at hd
        simpa using hheld d hd
    · intro d hd e he
      have hdc : d ≠ c := by
        intro hdc
        subst hdc
        rw [show (SerState.pc { s.withPc d CallerPc.closed with
              trace := s.trace ++ [Ev.close d] } d) =
            CallerPc.closed from pc_withPc_same s d _] at hd
        exact CallerPc.noConfusion hd
      simp only [pc_mk_trace, pc_withPc_other s c _ d hdc] at hd
      simp only [withPc_trace] at he
      rcases List.mem_append.mp he with he | he
      · exact hstart d hd e he
      · simp only [List.mem_singleton] at he
        subst he
        simp only [Ev.owner]
        exact fun hcd => hdc hcd.symm
    · intro d hd j x hj
      simp only [withPc_trace] at hj ⊢
      by_cases hdc : d = c
      · subst hdc
        rcases get?_snoc_cases hj with hj | ⟨_, hx⟩
        · refine ⟨s.trace.length, get?_lt hj, ?_⟩
          exact List.get?_concat_length s.trace (Ev.close d)
        · exact Ev.noConfusion hx
      · simp only [pc_mk_trace, pc_withPc_other s c _ d hdc] at hd
        rcases get?_snoc_cases hj with hj | ⟨_, hx⟩
        · obtain ⟨m, hm1, hm2⟩ := hclosed d hd j x hj
          exact ⟨m, hm1, get?_extend _ hm2⟩
        · exact Ev.noConfusion hx
    · intro i j d d' x y hdd hij hi hj
      simp only [withPc_trace] at hi hj ⊢
      rcases get?_snoc_cases hj with hj | ⟨_, hy⟩
      · rcases get?_snoc_cases hi with hi | ⟨hiL, _⟩
        · obtain ⟨m, hm1, hm2, hm3⟩ := hmain i j d d' x y hdd hij hi hj
          exact ⟨m, hm1, hm2, get?_extend _ hm3⟩
        · have := get?_lt hj
          omega
      · exact Ev.noConfusion hy
  | release c h1 h2 =>
    refine ⟨?_, ?_, ?_, ?_⟩
    · intro d hd
      by_cases hdc : d = c
      · subst hdc
        rw [show (SerState.pc { s.withPc d CallerPc.done with
              lock := none, trace := s.trace ++ [Ev.release d] } d) =
            CallerPc.done from pc_withPc_same s d _] at hd
        rcases hd with hd | hd <;> exact CallerPc.noConfusion hd
      · rw [show (SerState.pc { s.withPc c CallerPc.done with
              lock := none, trace := s.trace ++ [Ev.release c] } d) =
            s.pc d from pc_withPc_other s c _ d hdc] at hd
        have hx := hheld d hd
        rw [h1] at hx
        injection hx with hx2
        exact absurd hx2.symm hdc
    · intro d hd e he
      have hdc : d ≠ c := by
        intro hdc
        subst hdc
        rw [show (SerState.pc { s.withPc d CallerPc.done with
              lock := none, trace := s.trace ++ [Ev.release d] } d) =
            CallerPc.done from pc_withPc_same s d _] at hd
        exact CallerPc.noConfusion hd
      simp only [pc_mk_lock_trace, pc_withPc_other s c _ d hdc] at hd
      simp only [withPc_trace] at he
      rcases List.mem_append.mp he with he | he
      · exact hstart d hd e he
      · simp only [List.mem_singleton] at he
        subst he
        simp only [Ev.owner]
        exact fun hcd => hdc hcd.symm
    · intro d hd j x hj
      simp only [withPc_trace] at hj ⊢
      by_cases hdc : d = c
      · subst hdc
        rcases get?_snoc_cases hj with hj | ⟨_, hx⟩
        · obtain ⟨m, hm1, hm2⟩ := hclosed d (Or.inl h2) j x hj
          exact ⟨m, hm1, get?_extend _ hm2⟩
        · exact Ev.noConfusion hx
      · simp only [pc_mk_lock_trace, pc_withPc_other s c _ d hdc] at hd
        rcases get?_snoc_cases hj with hj | ⟨_, hx⟩
        · obtain ⟨m, hm1, hm2⟩ := hclosed d hd j x hj
          exact ⟨m, hm1, get?_extend _ hm2⟩
        · exact Ev.noConfusion hx
    · intro i j d d' x y hdd hij hi hj
      simp only [withPc_trace] at hi hj ⊢
      rcases get?_snoc_cases hj with hj | ⟨_, hy⟩
      · rcases get?_snoc_cases hi with hi | ⟨hiL, _⟩
        · obtain ⟨m, hm1, hm2, hm3⟩ := hmain i j d d' x y hdd hij hi hj
          exact ⟨m, hm1, hm2, get?_extend _ hm3⟩
        · have := get?_lt hj
          omega
      · exact Ev.noConfusion hy

/-- Every reachable state of the serialization protocol satisfies the
invariant. -/
theorem SerReachable_inv {s : SerState} (h : SerReachable s) : SerInv s := by
  induction h with
  | refl => exact SerInv_init
  | tail _ hstep ih => exact SerInv_step hstep ih

/-- Rust `str::parse::<usize>()` (src/lib.rs lines 150 and 154): an optional
leading plus sign, then one or more ASCII digits; anything else is a parse
error (`None`).  Values that overflow the 64-bit `usize` also error. -/
def parseUsize (s : String) : Option Nat :=
  let cs := s.data
  let cs2 := match cs with
    | '+' :: rest => rest
    | _ => cs
  if cs2 = [] then none
  else if cs2.all (fun c => c.isDigit) then
    let v := cs2.foldl (fun a c => a * 10 + (c.toNat - 48)) 0
    if v < 2 ^ 64 then some v else none
  else none

/-- Worker-count resolution of the process-wide entry point (lines 148-156):
`IEU_NUM_THREADS` if present and parsable, else `RAYON_NUM_THREADS` if present
and parsable, else the detected processor count (`num_cpus::get()`). -/
def resolveSize (env : String → Option String) (ncpus : Nat) : Nat :=
  match (env "IEU_NUM_THREADS").bind parseUsize with
  | some k => k
  | none =>
    match (env "RAYON_NUM_THREADS").bind parseUsize with
    | some k => k
    | none => ncpus

/-- One call through the process-wide `execute` (lines 143-160): under the
`GLOBAL` mutex, `get_or_insert_with` builds the pool with the resolved size on
first use and reuses the stored pool afterwards.  Returns the new global state
and the worker count of the pool this call used. -/
def globalCall (env : String → Option String) (ncpus : Nat)
    (g : Option Nat) : Option Nat × Nat :=
  match g with
  | some k => (some k, k)
  | none => (some (resolveSize env ncpus), resolveSize env ncpus)

/-- A complete execution of a round with one worker and one item: the worker
claims index 0, invokes, fails its second claim, reports and notifies. -/
theorem reach_w1n1 : RoundReachable 1 1
    { cnt := 2, finished := 1, notif := true, invoked := [(0, 0)],
      workers := [WStatus.done] } := by
  refine .head (Step.claim (initState 1) 0 rfl) ?_
  refine .head (Step.invoke _ 0 0 rfl) ?_
  refine .head (Step.claim _ 0 rfl) ?_
  refine .head (Step.finish _ 0 rfl) ?_
  refine .head (Step.notify _ 0 rfl) ?_
  exact .refl

/-- A complete execution of an empty round with one worker: the first claim
already fails, the worker reports and notifies without invoking anything. -/
theorem reach_w1n0 : RoundReachable 1 0
    { cnt := 1, finished := 1, notif := true, invoked := [],
      workers := [WStatus.done] } := by
  refine .head (Step.claim (initState 1) 0 rfl) ?_
  refine .head (Step.finish _ 0 rfl) ?_
  refine .head (Step.notify _ 0 rfl) ?_
  exact .refl

/-- A complete execution of a round with four workers and two items in which
worker 0 performs both invocations: worker 0 claims 0, invokes, claims 1,
invokes, fails; workers 1-3 each fail their only claim; worker 3 notifies. -/
theorem reach_w4n2 : RoundReachable 4 2
    { cnt := 6, finished := 4, notif := true, invoked := [(0, 0), (0, 1)],
      workers := [WStatus.done, WStatus.done, WStatus.done, WStatus.done] } := by
  refine .head (Step.claim (initState 4) 0 rfl) ?_
  refine .head (Step.invoke _ 0 0 rfl) ?_
  refine .head (Step.claim _ 0 rfl) ?_
  refine .head (Step.invoke _ 0 1 rfl) ?_
  refine .head (Step.claim _ 0 rfl) ?_
  refine .head (Step.finish _ 0 rfl) ?_
  refine .head (Step.claim _ 1 rfl) ?_
  refine .head (Step.finish _ 1 rfl) ?_
  refine .head (Step.claim _ 2 rfl) ?_
  refine .head (Step.finish _ 2 rfl) ?_
  refine .head (Step.claim _ 3 rfl) ?_
  refine .head (Step.finish _ 3 rfl) ?_
  refine .head (Step.notify _ 3 rfl) ?_
  exact .refl

/-- A complete shutdown round with one worker: it observes the null function,
reports, notifies and exits. -/
theorem reach_shut1 : ShutReachable 1
    { finished := 1, notif := true, workers := [SStatus.terminated] } := by
  refine .head (SStep.finish (shutInit 1) 0 rfl) ?_
  refine .head (SStep.notify _ 0 rfl) ?_
  exact .refl

/-- Two callers racing through the serialization protocol: caller `false`
runs a full round (acquire, one invocation, barrier close, release), then
caller `true` acquires and performs an invocation. -/
theorem reach_ser : SerReachable
    { lock := some true, pcF := CallerPc.done, pcT := CallerPc.running,
      trace := [Ev.acquire false, Ev.inv false 0, Ev.close false,
        Ev.release false, Ev.acquire true, Ev.inv true 5] } := by
  refine .head (SerStep.acquire serInit false rfl rfl) ?_
  refine .head (SerStep.inv _ false 0 rfl rfl) ?_
  refine .head (SerStep.close _ false rfl rfl) ?_
  refine .head (SerStep.release _ false rfl rfl) ?_
  refine .head (SerStep.acquire _ true rfl rfl) ?_
  refine .head (SerStep.inv _ true 5 rfl rfl) ?_
  exact .refl

/-- At every point of a round of size `n`, every recorded invocation index is
below `n`: a worker only invokes the function when its fetch-and-increment
returned a value below `max`. -/
theorem invoked_lt {w n : Nat} {s : RoundState} (h : RoundReachable w n s) :
    ∀ p ∈ s.invoked, p.2 < n := by
  intro p hp
  obtain ⟨hinv, _⟩ := RoundReachable_inv h
  have hc := hinv.hcount p.2
  have hmem : p.2 ∈ s.invoked.map Prod.snd := List.mem_map_of_mem Prod.snd hp
  have hpos : 0 < (s.invoked.map Prod.snd).count p.2 :=
    List.count_pos_iff.mpr hmem
  by_contra hge
  push_neg at hge
  rw [if_neg (by omega)] at hc
  omega

/-- C1: for every worker_count ≥ 1, every n ≥ 0 and every per-index function,
once a round of `Pool::execute(n, f)` has completed (every worker reported to
the barrier, which is what allows `execute` to return), `f` has been invoked
exactly once for each index in [0, n) — no duplicates, no omissions — and at
no point of the round was `f` invoked with an index ≥ n. -/
theorem C1_coverage_uniqueness (w n : Nat) (s : RoundState) (hw : 1 ≤ w)
    (h : RoundReachable w n s) :
    (∀ p ∈ s.invoked, p.2 < n) ∧
    (Terminal s →
      (∀ i, i < n → (s.invoked.map Prod.snd).count i = 1) ∧
      (∀ i, n ≤ i → (s.invoked.map Prod.snd).count i = 0)) := by
  refine ⟨invoked_lt h, fun ht => ?_⟩
  have he := round_end hw h ht
  exact ⟨he.1, he.2.1⟩

/-- C1 witness: the one-worker one-item round that performed exactly the
invocation (worker 0, index 0) satisfies the coverage conclusion. -/
theorem C1_coverage_uniqueness_witness :
    (([((0 : Nat), (0 : Nat))].map Prod.snd).count 0 = 1) ∧
    (([((0 : Nat), (0 : Nat))].map Prod.snd).count 1 = 0) := by
  have h := C1_coverage_uniqueness 1 1
    { cnt := 2, finished := 1, notif := true, invoked := [(0, 0)],
      workers := [WStatus.done] } (by decide) reach_w1n1
  have ht : Terminal
      { cnt := 2, finished := 1, notif := true,
        invoked := [(0, 0)], workers := [WStatus.done] } := by
    intro st hst
    simpa using hst
  exact ⟨(h.2 ht).1 0 (by decide), (h.2 ht).2 1 (by decide)⟩

/-- C2: in every round of a pool with `w ≥ 1` workers, and in the terminal
shutdown round triggered by `Drop`, the `finished` counter never exceeds `w`,
reaches exactly `w` by the time the round has completed, and the round-done
flag is only ever set once the counter has reached `w` (so the worker whose
increment made it reach `w` — the only one that can observe
`old == size - 1` — is the one that sets the flag and broadcasts) and is set
when the round completes. -/
theorem C2_barrier_exactly_once :
    (∀ w n s, 1 ≤ w → RoundReachable w n s →
      s.finished ≤ w ∧ (s.notif = true → s.finished = w) ∧
      (Terminal s → s.finished = w ∧ s.notif = true)) ∧
    (∀ w s, 1 ≤ w → ShutReachable w s →
      s.finished ≤ w ∧ (s.notif = true → s.finished = w) ∧
      (ShutTerminal s → s.finished = w ∧ s.notif = true)) := by
  constructor
  · intro w n s hw h
    obtain ⟨hinv, hwlen⟩ := RoundReachable_inv h
    have hle : s.workers.countP WStatus.isCounted ≤ s.workers.length :=
      List.countP_le_length WStatus.isCounted
    have hfin := hinv.hfin
    refine ⟨by omega, ?_, ?_⟩
    · intro hb
      have := hinv.hnotif hb
      omega
    · intro ht
      have he := round_end hw h ht
      exact ⟨he.2.2.2.2.1, he.2.2.2.2.2⟩
  · intro w s hw h
    obtain ⟨hinv, hwlen⟩ := ShutReachable_inv h
    have hle : s.workers.countP SStatus.isCounted ≤ s.workers.length :=
      List.countP_le_length SStatus.isCounted
    have hfin := hinv.hfin
    refine ⟨by omega, ?_, ?_⟩
    · intro hb
      have := hinv.hnotif hb
      omega
    · intro ht
      have he := shut_end hw h ht
      exact ⟨he.2, he.1⟩

/-- C2 witness: the completed one-worker round and the completed one-worker
shutdown round both end with the barrier counter at the worker count. -/
theorem C2_barrier_exactly_once_witness :
    ({ cnt := 2, finished := 1, notif := true, invoked := [(0, 0)],
       workers := [WStatus.done] } : RoundState).finished = 1 ∧
    ({ finished := 1, notif := true,
       workers := [SStatus.terminated] } : ShutState).finished = 1 := by
  constructor
  · have ht : Terminal
        { cnt := 2, finished := 1, notif := true,
          invoked := [(0, 0)], workers := [WStatus.done] } := by
      intro st hst
      simpa using hst
    exact ((C2_barrier_exactly_once.1 1 1 _ (by decide) reach_w1n1).2.2 ht).1
  · have ht : ShutTerminal
        { finished := 1, notif := true,
          workers := [SStatus.terminated] } := by
      intro st hst
      simpa using hst
    exact ((C2_barrier_exactly_once.2 1 _ (by decide) reach_shut1).2.2 ht).1

/-- C3: two rounds submitted concurrently on the same pool (or through the
process-wide entry point, whose single global mutex plays the role of the
admission lock) never have their invocations temporally overlap: between an
invocation of one round and a later invocation of the other round, the first
round's barrier-close event intervenes, so there is a total order between the
rounds and the later round's invocations all occur after the earlier round's
barrier has closed. -/
theorem C3_round_serialization (s : SerState) (h : SerReachable s)
    (i j : Nat) (c c' : Bool) (x y : Nat) (hcc : c ≠ c') (hij : i < j)
    (hi : s.trace.get? i = some (.inv c x))
    (hj : s.trace.get? j = some (.inv c' y)) :
    ∃ m, i < m ∧ m < j ∧ s.trace.get? m = some (.close c) :=
  (SerReachable_inv h).hmain i j c c' x y hcc hij hi hj

/-- C3 witness: in the concrete interleaving where caller `false` runs a full
round and caller `true` then invokes, the close event of caller `false` sits
between the two invocations. -/
theorem C3_round_serialization_witness :
    ∃ m, 1 < m ∧ m < 5 ∧
      ([Ev.acquire false, Ev.inv false 0, Ev.close false, Ev.release false,
        Ev.acquire true, Ev.inv true 5] : List Ev).get? m =
        some (Ev.close false) := by
  have h := C3_round_serialization _ reach_ser 1 5 false true 0 5
    (by decide) (by decide) rfl rfl
  exact h

/-- C4: on a pool with `w ≥ 1` workers, `execute(0, f)` never invokes `f`
(no reachable state of the empty round records an invocation), cannot get
stuck (a non-terminal state always has a next step), takes at most `3 * w`
atomic steps, and when complete has raised the flag `execute` waits for —
so the call terminates with zero invocations and does not block
indefinitely. -/
theorem C4_execute_zero (w : Nat) (s : RoundState) (hw : 1 ≤ w)
    (h : RoundReachable w 0 s) :
    s.invoked = [] ∧
    (Terminal s → s.notif = true) ∧
    (¬ Terminal s → ∃ s', Step 0 s s') ∧
    (∀ k s2, StepsN 0 k (initState w) s2 → k ≤ 3 * w) := by
  obtain ⟨hinv, hwlen⟩ := RoundReachable_inv h
  have hempty : s.invoked = [] := by
    have h1 := hinv.hlen
    have h2 : s.invoked.length = 0 := by omega
    exact List.length_eq_zero.mp h2
  refine ⟨hempty, ?_, fun hnt => round_progress hnt, ?_⟩
  · intro ht
    exact (round_end hw h ht).2.2.2.2.2
  · intro k s2 hs2
    have := round_bounded hs2
    omega

/-- C4 witness: the completed empty round on one worker performed no
invocation and raised the flag. -/
theorem C4_execute_zero_witness :
    ({ cnt := 1, finished := 1, notif := true, invoked := [],
       workers := [WStatus.done] } : RoundState).invoked = [] ∧
    ({ cnt := 1, finished := 1, notif := true, invoked := [],
       workers := [WStatus.done] } : RoundState).notif = true := by
  have h := C4_execute_zero 1
    { cnt := 1, finished := 1, notif := true, invoked := [],
      workers := [WStatus.done] } (by decide) reach_w1n0
  have ht : Terminal
      { cnt := 1, finished := 1, notif := true, invoked := [],
        workers := [WStatus.done] } := by
    intro st hst
    simpa using hst
  exact ⟨h.1, h.2.1 ht⟩

/-- C5 counterexample: the claim that every `execute(n, f)` on a pool built
with worker count 0 completes is false — with no workers, no reachable state
of the round ever has the notification flag set, so the wait loop of
`execute` (lines 116-119) never exits. -/
theorem C5_counterexample :
    ¬ ∃ s : RoundState, RoundReachable 0 5 s ∧ s.notif = true := by
  rintro ⟨s, h, hn⟩
  rw [round_stuck_w0 h] at hn
  simp [initState] at hn

/-- C5 amended: a pool constructed with worker-thread count 0 is a valid
value and no `execute(n, f)` on it ever invokes `f`, but such a call never
completes: the round state never changes at all, the completion flag stays
down forever, and the caller blocks indefinitely in the wait loop. -/
theorem C5_amended (n : Nat) (s : RoundState) (h : RoundReachable 0 n s) :
    s = initState 0 ∧ s.notif = false ∧ s.invoked = [] := by
  have he := round_stuck_w0 h
  subst he
  exact ⟨rfl, rfl, rfl⟩

/-- C5 witness: the (only) reachable state of a round of size 5 on the
zero-worker pool has the flag down. -/
theorem C5_amended_witness : (initState 0).notif = false :=
  (C5_amended 5 (initState 0) Relation.ReflTransGen.refl).2.1

/-- C6 counterexample: dropping a pool constructed with zero workers is not a
no-op that returns immediately — no reachable state of its shutdown round has
the notification flag set, so the wait loop of `Drop` (lines 132-136) never
exits and `drop` hangs forever. -/
theorem C6_counterexample :
    ¬ ∃ s : ShutState, ShutReachable 0 s ∧ s.notif = true := by
  rintro ⟨s, h, hn⟩
  rw [shut_stuck_w0 h] at hn
  simp [shutInit] at hn

/-- C6 amended: dropping a pool with `w ≥ 1` workers after all rounds have
completed terminates every worker thread and returns: the shutdown round can
always progress while some worker has not exited, takes at most `2 * w` atomic
steps, and when every worker has exited the flag `Drop` waits on is up with
the barrier counter at `w`.  (A pool with zero workers, by contrast, makes
`drop` hang; see the counterexample.) -/
theorem C6_drop_terminates (w : Nat) (hw : 1 ≤ w) :
    (∀ s, ShutReachable w s → ¬ ShutTerminal s → ∃ s', SStep s s') ∧
    (∀ k s, SStepsN k (shutInit w) s → k ≤ 2 * w) ∧
    (∀ s, ShutReachable w s → ShutTerminal s →
      s.notif = true ∧ s.finished = w) :=
  ⟨fun _ _ hnt => shut_progress hnt, fun _ _ h => shut_bounded h,
    fun _ h ht => shut_end hw h ht⟩

/-- C6 witness: the completed one-worker shutdown round has the flag up. -/
theorem C6_drop_terminates_witness :
    ({ finished := 1, notif := true,
       workers := [SStatus.terminated] } : ShutState).notif = true := by
  have ht : ShutTerminal
      { finished := 1, notif := true, workers := [SStatus.terminated] } := by
    intro st hst
    simpa using hst
  exact ((C6_drop_terminates 1 (by decide)).2.2 _ reach_shut1 ht).1

/-- C7 counterexample: with worker_count = 4 and n = 2 it is not true that in
every execution exactly 2 of the 4 workers invoke `f` once each — there is a
complete execution in which a single worker (worker 0) performs both
invocations and the other three workers invoke `f` zero times. -/
theorem C7_counterexample :
    ∃ s : RoundState, RoundReachable 4 2 s ∧ Terminal s ∧
      s.invoked = [(0, 0), (0, 1)] ∧
      (s.invoked.map Prod.fst).dedup.length = 1 := by
  refine ⟨_, reach_w4n2, ?_, rfl, by decide⟩
  intro st hst
  simpa using hst

/-- C7 amended: with worker_count = 4 and n = 2, in every complete execution
`f` is invoked exactly twice in total — once on index 0 and once on index 1 —
by at most two distinct workers (possibly a single one: which workers invoke
is execution-dependent); the remaining workers contribute only to the
barrier. -/
theorem C7_undersubscription (s : RoundState) (h : RoundReachable 4 2 s)
    (ht : Terminal s) :
    s.invoked.length = 2 ∧
    (∀ i, i < 2 → (s.invoked.map Prod.snd).count i = 1) ∧
    (∀ p ∈ s.invoked, p.1 < 4 ∧ p.2 < 2) ∧
    (s.invoked.map Prod.fst).dedup.length ≤ 2 := by
  have he := round_end (by decide) h ht
  obtain ⟨hinv, hwlen⟩ := RoundReachable_inv h
  refine ⟨he.2.2.1, he.1, ?_, ?_⟩
  · intro p hp
    have h1 := hinv.hwid p hp
    have h2 := invoked_lt h p hp
    omega
  · have h1 : (s.invoked.map Prod.fst).dedup.length ≤
        (s.invoked.map Prod.fst).length :=
      (List.dedup_sublist _).length_le
    simp only [List.length_map] at h1
    omega

/-- C7 witness: the execution in which worker 0 performed both invocations
satisfies the amended statement. -/
theorem C7_undersubscription_witness :
    (([((0 : Nat), (0 : Nat)), (0, 1)] : List (Nat × Nat)).length = 2) ∧
    (([((0 : Nat), (0 : Nat)), (0, 1)].map Prod.snd).count 0 = 1) := by
  have ht : Terminal
      { cnt := 6, finished := 4, notif := true, invoked := [(0, 0), (0, 1)],
        workers := [WStatus.done, WStatus.done, WStatus.done,
          WStatus.done] } := by
    intro st hst
    simp at hst
    simp [hst]
  have h := C7_undersubscription _ reach_w4n2 ht
  exact ⟨h.1, h.2.1 0 (by decide)⟩

/-- C8: the process-wide entry point resolves its worker count exactly once,
at first use, in this order: `IEU_NUM_THREADS` if present and numeric, else
`RAYON_NUM_THREADS` if present and numeric, else the detected number of
available processors; once the global pool is stored, every later call reuses
it unchanged regardless of any later environment or processor-count value, so
the resolved count is fixed for the remainder of the process lifetime. -/
theorem C8_resolution (env : String → Option String) (ncpus : Nat) :
    (∀ a k, env "IEU_NUM_THREADS" = some a → parseUsize a = some k →
      resolveSize env ncpus = k) ∧
    ((env "IEU_NUM_THREADS").bind parseUsize = none →
      ∀ b k, env "RAYON_NUM_THREADS" = some b → parseUsize b = some k →
        resolveSize env ncpus = k) ∧
    ((env "IEU_NUM_THREADS").bind parseUsize = none →
      (env "RAYON_NUM_THREADS").bind parseUsize = none →
      resolveSize env ncpus = ncpus) ∧
    (globalCall env ncpus none =
      (some (resolveSize env ncpus), resolveSize env ncpus)) ∧
    (∀ k env2 ncpus2, globalCall env2 ncpus2 (some k) = (some k, k)) := by
  refine ⟨?_, ?_, ?_, rfl, fun k env2 ncpus2 => rfl⟩
  · intro a k ha hk
    simp [resolveSize, ha, hk]
  · intro h0 b k hb hk
    simp [resolveSize, h0, hb, hk]
  · intro h0 h1
    simp [resolveSize, h0, h1]

/-- Environment with a numeric explicit override. -/
def envNum : String → Option String :=
  fun key => if key = "IEU_NUM_THREADS" then some "3" else none

/-- C8 witness: with `IEU_NUM_THREADS=3` the resolved size is 3 regardless of
the processor count, and a second call reuses the stored pool. -/
theorem C8_resolution_witness :
    resolveSize envNum 7 = 3 ∧ globalCall envNum 9 (some 3) = (some 3, 3) := by
  refine ⟨?_, (C8_resolution envNum 7).2.2.2.2 3 envNum 9⟩
  exact (C8_resolution envNum 7).1 "3" 3 (by decide) (by decide)

/-- C10: if an environment override is set but does not parse as a
non-negative integer, the entry point silently ignores it and falls through
to the next source in the chain — it neither fails nor treats the unparsable
value as zero. -/
theorem C10_unparsable_ignored (env : String → Option String) (ncpus : Nat)
    (a : String) (ha : env "IEU_NUM_THREADS" = some a)
    (hpa : parseUsize a = none) :
    (∀ b k, env "RAYON_NUM_THREADS" = some b → parseUsize b = some k →
      resolveSize env ncpus = k) ∧
    ((env "RAYON_NUM_THREADS").bind parseUsize = none →
      resolveSize env ncpus = ncpus) := by
  constructor
  · intro b k hb hk
    simp [resolveSize, ha, hpa, hb, hk]
  · intro h1
    simp [resolveSize, ha, hpa, h1]

/-- Environment with an unparsable explicit override and no second
override. -/
def envBad : String → Option String :=
  fun key => if key = "IEU_NUM_THREADS" then some "abc" else none

/-- C10 witness: with `IEU_NUM_THREADS=abc` and no second override the
resolved size is the processor count 7, not zero and not an error. -/
theorem C10_unparsable_ignored_witness :
    resolveSize envBad 7 = 7 ∧ (7 : Nat) ≠ 0 := by
  refine ⟨?_, by decide⟩
  exact (C10_unparsable_ignored envBad 7 "abc" (by decide) (by decide)).2 rfl

/-- C9: in a completed round of size `n` on a pool with `w ≥ 1` workers in
which every worker participates, the claim cursor equals `n + w`: each worker
performed exactly one failed fetch-and-increment (the count of workers that
left the claim loop equals `w`), so the cursor overshoots the round size by
exactly the number of workers. -/
theorem C9_cursor_overshoot (w n : Nat) (s : RoundState) (hw : 1 ≤ w)
    (h : RoundReachable w n s) (ht : Terminal s) :
    s.cnt = n + w ∧ s.workers.countP WStatus.isFailed = w := by
  have he := round_end hw h ht
  have hf := (terminal_facts h ht).2.1
  exact ⟨he.2.2.2.1, hf⟩

/-- C9 witness: the completed one-worker one-item round ends with the cursor
at 1 + 1 = 2. -/
theorem C9_cursor_overshoot_witness :
    ({ cnt := 2, finished := 1, notif := true, invoked := [(0, 0)],
       workers := [WStatus.done] } : RoundState).cnt = 1 + 1 := by
  have ht : Terminal
      { cnt := 2, finished := 1, notif := true, invoked := [(0, 0)],
        workers := [WStatus.done] } := by
    intro st hst
    simpa using hst
  exact (C9_cursor_overshoot 1 1 _ (by decide) reach_w1n1 ht).1
